import Mathlib

/-!
Verification development for the FileSystem core module (filesystem/FileSystem.js).

Paths are modelled as lists of characters.  Pure path manipulation functions are
translated directly from the source; the asynchronous parts (change coalescing,
watch registration, directory diffing) are modelled as explicit state-passing
functions whose call logs record the callbacks the source would invoke.
-/

/-! ### Path predicates and normalization (FileSystem.isAbsolutePath, _ensureTrailingSlash, _normalizePath) -/

/-- Translation of FileSystem.isAbsolutePath: the path starts with a slash, or has
a drive-letter pattern, i.e. its second character is a colon and its third a slash. -/
def isAbsolutePath (p : List Char) : Bool :=
  p.get? 0 = some '/' || (p.get? 1 = some ':' && p.get? 2 = some '/')

/-- Worker for collapsing runs of slashes.  The flag records whether the previously
emitted character was a slash (in which case further slashes are dropped).  This is
the effect of the source replacing every match of the duplicated-slash pattern
(two or more consecutive slashes) with a single slash. -/
def collapseAux : Bool → List Char → List Char
  | _, [] => []
  | b, c :: rest =>
    if c = '/' then
      (if b then collapseAux true rest else '/' :: collapseAux true rest)
    else c :: collapseAux false rest

/-- Collapse every run of two or more consecutive slashes into a single slash
(the replace step of _normalizePath). -/
def collapseSlashes (p : List Char) : List Char := collapseAux false p

/-- Whether the path contains two consecutive dot characters; translation of the
source test that the index of the two-dot substring is not minus one. -/
def hasDotDot : List Char → Bool
  | [] => false
  | c :: rest => (c = '.' && rest.head? = some '.') || hasDotDot rest

/-- Whether the last character of the path is a slash. -/
def endsWithSlash : List Char → Bool
  | [] => false
  | [c] => c = '/'
  | _ :: c :: rest => endsWithSlash (c :: rest)

/-- Translation of _ensureTrailingSlash: append a slash unless the last character
already is one.  (On the empty path, the source reads an out-of-range index,
obtains undefined, and appends the slash; endsWithSlash [] is false, matching.) -/
def ensureTrailingSlash (p : List Char) : List Char :=
  if endsWithSlash p then p else p ++ ['/']

/-- Whether the path begins with two slashes.  The source computes this as: the
first match of the duplicated-slash pattern occurs at index zero. -/
def startsWithDoubleSlash (p : List Char) : Bool :=
  p.get? 0 = some '/' && p.get? 1 = some '/'

/-- Split a path at slashes, keeping empty segments, as the JavaScript split does. -/
def splitSlash : List Char → List (List Char)
  | [] => [[]]
  | c :: rest =>
    if c = '/' then [] :: splitSlash rest
    else
      match splitSlash rest with
      | s :: ss => (c :: s) :: ss
      | [] => [[c]]

/-- Join segments with single slashes, as the JavaScript join does. -/
def joinSegs : List (List Char) → List Char
  | [] => []
  | [s] => s
  | s :: t :: rest => s ++ '/' :: joinSegs (t :: rest)

/-- Translation of the dot-dot removal loop of _normalizePath: scan the segment
array from index one; on a dot-dot segment at index at least two, splice out that
segment together with its predecessor and resume one position earlier; a dot-dot
segment at index one makes the path invalid (the source throws).  none models the
thrown error. -/
def spliceDotDot (segs : List (List Char)) (i : Nat) : Option (List (List Char)) :=
  if h : i < segs.length then
    if segs.get ⟨i, h⟩ = ['.', '.'] then
      if i < 2 then none
      else spliceDotDot (segs.take (i - 1) ++ segs.drop (i + 1)) (i - 1)
    else spliceDotDot segs (i + 1)
  else some segs
termination_by 3 * segs.length + 2 - i
decreasing_by
  · simp only [List.length_append, List.length_take, List.length_drop]
    omega
  · omega

/-- Translation of FileSystem.prototype._normalizePath.  The unc parameter is the
backend flag normalizeUNCPaths; none models the errors thrown on non-absolute or
invalid paths.  Steps, in source order: reject non-absolute paths; remember whether
the path is UNC-like (flag set and the path starts with a duplicated slash);
collapse duplicated slashes; if the path contains two consecutive dots, run the
segment splice loop; for directories ensure a trailing slash; finally restore the
leading slash removed from a UNC path. -/
def normalizePath (unc : Bool) (path : List Char) (isDirectory : Bool) : Option (List Char) :=
  if ¬ isAbsolutePath path then none
  else
    let isUNC := unc && startsWithDoubleSlash path
    let p1 := collapseSlashes path
    match (if hasDotDot p1 then (spliceDotDot (splitSlash p1) 1).map joinSegs else some p1) with
    | none => none
    | some p2 =>
      let p3 := if isDirectory then ensureTrailingSlash p2 else p2
      some (if isUNC then '/' :: p3 else p3)

/-! Auxiliary predicates used only in theorem statements. -/

/-- No two consecutive characters of the path are both slashes. -/
def noDupSlash : List Char → Bool
  | [] => true
  | [_] => true
  | a :: b :: rest => !(a = '/' && b = '/') && noDupSlash (b :: rest)

/-- Whether the path ends with two consecutive slashes. -/
def endsTwoSlash : List Char → Bool
  | [] => false
  | [_] => false
  | [a, b] => a = '/' && b = '/'
  | _ :: b :: c :: rest => endsTwoSlash (b :: c :: rest)

/-! ### Backend path library (impl.pathLib)

The low-level implementation object supplies a node-style posix path library that
_getNewPath consults.  That library is outside this repository; the following
definitions model its standard posix semantics (normalize, dirname, extname,
basename, join) for slash-separated paths. -/

/-- Remove every trailing slash. -/
def stripTrailingSlashes (p : List Char) : List Char :=
  ((p.reverse).dropWhile (fun c => c == '/')).reverse

/-- Modelled from the backend interface: posix path normalization — drop empty and
single-dot segments, resolve dot-dot segments against the stack, keep a trailing
slash, keep the leading slash of an absolute path. -/
def posixNormalize (p : List Char) : List Char :=
  let isAbs := p.head? = some '/'
  let segs := (splitSlash p).filter (fun s => !(s.isEmpty || s == ['.']))
  let resolved := segs.foldl
      (fun (acc : List (List Char)) s =>
        if s == ['.', '.'] then
          (if acc.isEmpty then (if isAbs then [] else [['.', '.']]) else acc.dropLast)
        else acc ++ [s]) []
  let core := joinSegs resolved
  let core := if isAbs then '/' :: core else core
  let core := if endsWithSlash p && !(endsWithSlash core) && !core.isEmpty then core ++ ['/'] else core
  if core.isEmpty then ['.'] else core

/-- Modelled from the backend interface: posix dirname — everything before the last
slash of the path with trailing slashes stripped. -/
def posixDirname (p : List Char) : List Char :=
  let q := stripTrailingSlashes p
  let d := stripTrailingSlashes ((q.reverse.dropWhile (fun c => c != '/')).reverse)
  if d.isEmpty then (if p.head? = some '/' then ['/'] else ['.']) else d

/-- Modelled from the backend interface: the final path segment, trailing slashes
stripped. -/
def posixBasenameAll (p : List Char) : List Char :=
  let q := stripTrailingSlashes p
  (q.reverse.takeWhile (fun c => c != '/')).reverse

/-- Modelled from the backend interface: posix extname — the suffix of the final
segment from its last dot, empty when the segment has no dot or only a leading dot. -/
def posixExtname (p : List Char) : List Char :=
  let b := posixBasenameAll p
  let afterRev := b.reverse.takeWhile (fun c => c != '.')
  if afterRev.length = b.length then []
  else
    let dotIdx := b.length - 1 - afterRev.length
    if dotIdx = 0 then [] else b.drop dotIdx

/-- Modelled from the backend interface: posix basename with an extension argument —
the final segment, with the extension stripped when it is a proper suffix. -/
def posixBasename (p ext : List Char) : List Char :=
  let b := posixBasenameAll p
  if !ext.isEmpty && ext.isSuffixOf b && !(b == ext) then b.take (b.length - ext.length) else b

/-- Modelled from the backend interface: posix join of two path parts. -/
def posixJoin (a b : List Char) : List Char :=
  if a.isEmpty && b.isEmpty then ['.'] else posixNormalize (a ++ '/' :: b)

/-! ### Free-path search (_getNewPath, FileSystem.prototype.getFreePath) -/

/-- Translation of _getNewPath: normalize the suggested path; for a directory,
append a space and the parenthesized copy suffix to the whole name; for a file,
insert the parenthesized copy suffix (with no space) between the basename and the
extension. -/
def getNewPath (suggestedPath : List Char) (isDir : Bool) (i : Nat) : List Char :=
  let sp := posixNormalize suggestedPath
  if isDir then
    sp ++ " (copy ".toList ++ Nat.toDigits 10 i ++ [')']
  else
    let dir := posixDirname sp
    let extName := posixExtname sp
    let baseName := posixBasename sp extName
    posixJoin dir (baseName ++ "(copy ".toList ++ Nat.toDigits 10 i ++ [')'] ++ extName)

/-- Modelled from the spec: the FileSystemError module (not under src) exposes a
set of distinguished error strings; backend-origin errors are carried verbatim. -/
inductive FsError where
  | NOT_FOUND
  | ROOT_NOT_WATCHED
  | TOO_MANY_ENTRIES
  | backendErr (code : Nat)
deriving DecidableEq, Repr

/-- The fixed upper bound of the free-path search. -/
def MAX_DEDUPE_NUMBER : Nat := 1000

/-- The existence-probing loop of getFreePath: the source iterates i from one
while i is below MAX_DEDUPE_NUMBER, returning the first candidate that does not
exist; when the loop runs out, it fails with TOO_MANY_ENTRIES.  The fuel argument
counts the remaining iterations. -/
def freePathLoop (suggestedPath : List Char) (isDir : Bool) (existsFn : List Char → Bool) :
    Nat → Nat → Except FsError (List Char)
  | 0, _ => .error .TOO_MANY_ENTRIES
  | fuel + 1, i =>
    let newPath := getNewPath suggestedPath isDir i
    if existsFn newPath then freePathLoop suggestedPath isDir existsFn fuel (i + 1)
    else .ok newPath

/-- Translation of FileSystem.prototype.getFreePath.  The statResult argument is
the outcome the backend stat delivers for the suggested path: ok carries the isDirectory
flag of the stat object, error carries the error value.  existsFn is the backend
existence probe. -/
def getFreePath (statResult : Except FsError Bool) (existsFn : List Char → Bool)
    (suggestedPath : List Char) : Except FsError (List Char) :=
  match statResult with
  | .ok isDir => freePathLoop suggestedPath isDir existsFn (MAX_DEDUPE_NUMBER - 1) 1
  | .error e => if e = .NOT_FOUND then .ok suggestedPath else .error e

/-! ### Change coalescing (_beginChange, _endChange, _enqueueExternalChange)

The coalescer state carries the active-change refcount and the queue of pending
external changes.  The handled field is the log of _handleExternalChange
invocations, in invocation order (the body of _handleExternalChange is modelled
separately below). -/

/-- An externally reported change: nullable path and optional stat (the stat is
modelled by its modification time). -/
abbrev ExtChange := Option (List Char) × Option Int

structure CoalescerState where
  activeChangeCount : Int
  externalChanges : List ExtChange
  handled : List ExtChange
deriving DecidableEq, Repr

/-- Translation of _triggerExternalChangesNow: invoke _handleExternalChange on each
queued change in order, then truncate the queue. -/
def triggerExternalChangesNow (s : CoalescerState) : CoalescerState :=
  { s with handled := s.handled ++ s.externalChanges, externalChanges := [] }

/-- Translation of _enqueueExternalChange: push the change, and process the queue
immediately when the active-change count is zero. -/
def enqueueExternalChange (ch : ExtChange) (s : CoalescerState) : CoalescerState :=
  let s1 := { s with externalChanges := s.externalChanges ++ [ch] }
  if s1.activeChangeCount = 0 then triggerExternalChangesNow s1 else s1

/-- Translation of _beginChange: increment the active-change count. -/
def beginChange (s : CoalescerState) : CoalescerState :=
  { s with activeChangeCount := s.activeChangeCount + 1 }

/-- Translation of _endChange: decrement the active-change count and process the
queue when the count is zero (a negative count is only logged in the source). -/
def endChange (s : CoalescerState) : CoalescerState :=
  let s1 := { s with activeChangeCount := s.activeChangeCount - 1 }
  if s1.activeChangeCount = 0 then triggerExternalChangesNow s1 else s1

/-! ### Entries and _handleExternalChange -/

/-- Modelled from the spec: an Entry carries its normalized full path, its fixed
file/directory kind, an optional cached stat (modelled by the modification time),
and cached data (contents/listing), invalidated by _clearCachedData. -/
structure EntryRec where
  fullPath : List Char
  isFile : Bool
  statMtime : Option Int
  hasCachedData : Bool
deriving DecidableEq, Repr

/-- Modelled from the spec: FileSystemEntry._clearCachedData invalidates the cached
stat and the cached data of the entry. -/
def clearCachedData (e : EntryRec) : EntryRec :=
  { e with statMtime := none, hasCachedData := false }

/-- Events fired while processing an external change.  A change event carries the
nullable entry (identified by its path); dirDiff records that the source handed the
entry to _handleDirectoryChange, whose protocol is modelled separately. -/
inductive FsEvent where
  | change (entry : Option (List Char))
  | dirDiff (path : List Char)
deriving DecidableEq, Repr

/-- The staleness test of the file branch of _handleExternalChange: the incoming
stat and the cached stat both exist and the incoming modification time is not
newer than the cached one. -/
def staleCheck : Option Int → Option Int → Bool
  | some m, some om => m ≤ om
  | _, _ => false

/-- Translation of FileSystem.prototype._handleExternalChange over an entry index.
A null path is a wholesale change: clear every cached entry and fire one change
event with a null entry.  Otherwise normalize the path and look it up; unknown
paths are ignored; for a file entry, refresh the stat and invalidate the cache
(and fire a change event) only when the staleness test fails; for a directory,
delegate to the directory-diff protocol. -/
def handleExternalChange (unc : Bool) (path : Option (List Char)) (stat : Option Int)
    (index : List EntryRec) : Option (List EntryRec × List FsEvent) :=
  match path with
  | none => some (index.map clearCachedData, [.change none])
  | some p =>
    match normalizePath unc p false with
    | none => none
    | some np =>
      match index.find? (fun e => e.fullPath == np) with
      | none => some (index, [])
      | some entry =>
        if entry.isFile then
          if staleCheck stat entry.statMtime then some (index, [])
          else
            some (index.map (fun e =>
                if e.fullPath == np then { clearCachedData e with statMtime := stat } else e),
              [.change (some np)])
        else
          some (index, [.dirDiff np])

/-! ### Directory diff fan-out (_handleDirectoryChange)

Entries are identified by numbers (object identity); the added and removed sets
are computed by identity membership exactly as the source filters do, and the
counter join tracks the watch/unwatch sub-operation completions. -/

/-- The added set: entries of the new listing absent from the old listing. -/
def computeAdded (oldContents newContents : List Nat) : List Nat :=
  newContents.filter (fun e => !(oldContents.contains e))

/-- The removed set: entries of the old listing absent from the new listing. -/
def computeRemoved (oldContents newContents : List Nat) : List Nat :=
  oldContents.filter (fun e => !(newContents.contains e))

/-- The sub-operation counter: the added count plus the removed count. -/
def subOpCounter (oldContents newContents : List Nat) : Nat :=
  (computeAdded oldContents newContents).length + (computeRemoved oldContents newContents).length

/-- The join state of the fan-out: the remaining counter and the number of times
the directory-diff callback has been applied. -/
structure DiffJoin where
  counter : Nat
  callbackRuns : Nat
deriving DecidableEq, Repr

/-- Translation of watchOrUnwatchCallback: on each sub-operation completion
(the error flag is only logged), decrement the counter, and apply the callback
exactly when the counter strikes zero. -/
def watchOrUnwatchCallback (st : DiffJoin) (_err : Bool) : DiffJoin :=
  let c := st.counter - 1
  { counter := c, callbackRuns := if c = 0 then st.callbackRuns + 1 else st.callbackRuns }

/-- Run a sequence of sub-operation completions (in an arbitrary completion order,
each with an arbitrary error flag) through the join. -/
def runCompletions (st : DiffJoin) : List Bool → DiffJoin
  | [] => st
  | e :: rest => runCompletions (watchOrUnwatchCallback st e) rest

/-! ### Entry construction and the entry index (getFileForPath, _getEntryForPath)

Object identity is modelled by numbering allocations: the index maps normalized
paths to entry numbers, and each construction of a new entry object consumes the
next number.  Two results are the same object exactly when their numbers agree. -/

structure FsIndexState where
  entries : List (List Char × Nat)
  nextId : Nat
deriving DecidableEq, Repr

/-- Modelled from the spec: FileIndex.getEntry — the entry stored for a path. -/
def indexGetEntry (s : FsIndexState) (p : List Char) : Option Nat :=
  (s.entries.find? (fun kv => kv.1 == p)).map Prod.snd

/-- Translation of _getEntryForPath: normalize the path (with the directory flag of
the requested constructor), return the indexed entry when present, otherwise
construct a new entry and add it to the index. -/
def getEntryForPath (unc : Bool) (isDirectory : Bool) (path : List Char) (s : FsIndexState) :
    Option (Nat × FsIndexState) :=
  match normalizePath unc path isDirectory with
  | none => none
  | some np =>
    match indexGetEntry s np with
    | some id => some (id, s)
    | none => some (s.nextId, ⟨s.entries ++ [(np, s.nextId)], s.nextId + 1⟩)

/-- The protocol of a path as the URL parser extracts it: the leading run of
characters up to a colon (with no slash before it), colon included; empty when the
path has no protocol (in particular for every path starting with a slash). -/
def protocolOf (p : List Char) : List Char :=
  let pfx := p.takeWhile (fun c => !(c == ':' || c == '/'))
  if pfx.length > 0 && p.get? pfx.length = some ':' then pfx ++ [':'] else []

/-- Whether the protocol adapter registry resolves an adapter carrying a file
implementation for the protocol.  After module initialization the registry holds
the default remote-file adapter (whose canRead always answers true) under the http
and https protocols. -/
def adapterWithFileImpl (protocol : List Char) : Bool :=
  protocol == "http:".toList || protocol == "https:".toList

/-- The object getFileForPath returns: an indexed File entry, or a remote-file
object freshly constructed by a protocol adapter (never indexed). -/
inductive EntryObj where
  | indexed (id : Nat)
  | remoteFile (id : Nat)
deriving DecidableEq, Repr

/-- Translation of FileSystem.prototype.getFileForPath.  vfs is the surrounding
virtual-serving-URL remap (an external collaborator): when it yields a path the
lookup proceeds on that path.  When the protocol adapter registry has an adapter
with a file implementation for the path, a fresh remote-file object is constructed
(bypassing the index); otherwise the entry comes from _getEntryForPath with the
File constructor. -/
def getFileForPath (unc : Bool) (vfs : List Char → Option (List Char)) (path : List Char)
    (s : FsIndexState) : Option (EntryObj × FsIndexState) :=
  let p := (vfs path).getD path
  if adapterWithFileImpl (protocolOf p) then
    some (.remoteFile s.nextId, { s with nextId := s.nextId + 1 })
  else
    (getEntryForPath unc false p s).map (fun r => (.indexed r.1, r.2))

/-! ### Watched roots and FileSystem.prototype.watch -/

/-- Modelled from the spec: the WatchedRoot lifecycle states (the WatchedRoot
module is not under src). -/
inductive WStatus where
  | INACTIVE
  | STARTING
  | ACTIVE
deriving DecidableEq, Repr

/-- A watched root: its entry (identified by the full path) and its status. -/
structure WRoot where
  entryPath : List Char
  status : WStatus
deriving DecidableEq, Repr

/-- The set of watched roots: a path-keyed map in insertion order, as JavaScript
object keys enumerate. -/
structure WatchState where
  watchedRoots : List (List Char × WRoot)
deriving DecidableEq, Repr

/-- Translation of _findWatchedRootForPath: the first registered root whose path is
a prefix of the given path (the index-of test against zero). -/
def findWatchedRootForPath (s : WatchState) (fullPath : List Char) : Option WRoot :=
  (s.watchedRoots.find? (fun kv => kv.1.isPrefixOf fullPath)).map Prod.snd

/-- In the source, watchingChildRoot is the Boolean that Array.prototype.some
returns, and the subsequent guard reads the status property of that Boolean, which
is undefined.  Reading a property of a Boolean is modelled as none. -/
def statusOfBoolean (_b : Bool) : Option WStatus := none

/-- Keyed update of the watched-root map, as assignment to an object key: replace
in place when the key exists, append otherwise. -/
def assocSet (l : List (List Char × WRoot)) (k : List Char) (v : WRoot) :
    List (List Char × WRoot) :=
  match l with
  | [] => [(k, v)]
  | kv :: rest => if kv.1 == k then (k, v) :: rest else kv :: assocSet rest k v

/-- The synchronous outcome of a watch call: the parent-overlap error callback, the
child-overlap error callback, or registration of a new root in STARTING state. -/
inductive WatchOutcome where
  | errParentWatched
  | errChildWatched
  | registered
deriving DecidableEq, Repr

/-- The remainder of the watch body after the parent-root check: the child-root
check (over the Boolean, see statusOfBoolean) and the registration of the new
root in STARTING state. -/
def watchAfterParentCheck (s : WatchState) (fullPath : List Char) :
    WatchOutcome × WatchState :=
  let watchingChildRoot := s.watchedRoots.any (fun kv => fullPath.isPrefixOf kv.2.entryPath)
  if watchingChildRoot &&
      (statusOfBoolean watchingChildRoot == some .STARTING
        || statusOfBoolean watchingChildRoot == some .ACTIVE) then
    (.errChildWatched, s)
  else
    (.registered, ⟨assocSet s.watchedRoots fullPath ⟨fullPath, .STARTING⟩⟩)

/-- Translation of the synchronous phase of FileSystem.prototype.watch: fail with
the parent-overlap error when the first prefix-matching registered root is in
STARTING or ACTIVE state; then run the (ineffective) child-root check; otherwise
store a new root under the full path and mark it STARTING. -/
def watch (s : WatchState) (fullPath : List Char) : WatchOutcome × WatchState :=
  match findWatchedRootForPath s fullPath with
  | some watchingParentRoot =>
    if watchingParentRoot.status == .STARTING || watchingParentRoot.status == .ACTIVE then
      (.errParentWatched, s)
    else watchAfterParentCheck s fullPath
  | none => watchAfterParentCheck s fullPath

/-! ### Lemmas about slash collapsing and the normal form -/

theorem collapseAux_false_head (p : List Char) : (collapseAux false p).head? = p.head? := by
  cases p with
  | nil => rfl
  | cons c rest =>
    simp only [collapseAux]
    split
    · simp_all
    · simp

theorem collapseAux_true_head (p : List Char) : (collapseAux true p).head? ≠ some '/' := by
  induction p with
  | nil => simp [collapseAux]
  | cons c rest ih =>
    simp only [collapseAux]
    split
    · exact ih
    · simp_all

theorem collapseAux_false_nonempty (p : List Char) (h : p ≠ []) : collapseAux false p ≠ [] := by
  intro hc
  have := collapseAux_false_head p
  rw [hc] at this
  cases p with
  | nil => exact h rfl
  | cons c rest => simp at this

theorem noDupSlash_tail (a : Char) (l : List Char) (h : noDupSlash (a :: l) = true) :
    noDupSlash l = true := by
  cases l with
  | nil => rfl
  | cons b t =>
    simp only [noDupSlash, Bool.and_eq_true] at h
    exact h.2

theorem noDupSlash_cons_slash (X : List Char) (hh : X.head? ≠ some '/')
    (hn : noDupSlash X = true) : noDupSlash ('/' :: X) = true := by
  cases X with
  | nil => rfl
  | cons b t =>
    simp only [List.head?] at hh
    simp only [noDupSlash, Bool.and_eq_true]
    constructor
    · simp only [Bool.not_eq_true']
      cases hb : (b == '/') with
      | false => simpa using hb
      | true => exact absurd (congrArg some (by simpa using hb)) hh
    · exact hn

theorem noDupSlash_cons_nonslash (c : Char) (X : List Char) (hc : c ≠ '/')
    (hn : noDupSlash X = true) : noDupSlash (c :: X) = true := by
  cases X with
  | nil => rfl
  | cons b t =>
    simp only [noDupSlash, Bool.and_eq_true]
    exact ⟨by simp [hc], hn⟩

theorem collapseAux_noDup (p : List Char) : ∀ b, noDupSlash (collapseAux b p) = true := by
  induction p with
  | nil => intro b; rfl
  | cons c rest ih =>
    intro b
    simp only [collapseAux]
    split
    · split
      · exact ih true
      · exact noDupSlash_cons_slash _ (collapseAux_true_head rest) (ih true)
    · exact noDupSlash_cons_nonslash _ _ (by assumption) (ih false)

theorem collapseAux_fix (p : List Char) (hn : noDupSlash p = true) :
    collapseAux false p = p ∧ (p.head? ≠ some '/' → collapseAux true p = p) := by
  induction p with
  | nil => exact ⟨rfl, fun _ => rfl⟩
  | cons c rest ih =>
    have hrest := noDupSlash_tail c rest hn
    obtain ⟨ihf, iht⟩ := ih hrest
    constructor
    · simp only [collapseAux]
      split
      · rename_i hc
        subst hc
        have hhd : rest.head? ≠ some '/' := by
          cases rest with
          | nil => simp
          | cons b t =>
            simp only [noDupSlash, Bool.and_eq_true] at hn
            have := hn.1
            simp only [Bool.not_eq_true'] at this
            intro hb
            simp only [List.head?, Option.some.injEq] at hb
            simp [hb] at this
        rw [iht hhd]
        simp
      · rw [ihf]
    · intro hh
      simp only [collapseAux]
      split
      · rename_i hc
        exact absurd (by simp [hc]) hh
      · rw [ihf]

theorem collapseAux_hasDotDot (p : List Char) (hd : hasDotDot p = false) :
    ∀ b, hasDotDot (collapseAux b p) = false := by
  induction p with
  | nil => intro b; rfl
  | cons c rest ih =>
    have hrest : hasDotDot rest = false := by
      simp only [hasDotDot, Bool.or_eq_false_iff] at hd
      exact hd.2
    intro b
    simp only [collapseAux]
    split
    · rename_i hc
      subst hc
      split
      · exact ih hrest true
      · simp only [hasDotDot, Bool.or_eq_false_iff]
        exact ⟨by simp, ih hrest true⟩
    · rename_i hc
      simp only [hasDotDot, Bool.or_eq_false_iff]
      refine ⟨?_, ih hrest false⟩
      rw [collapseAux_false_head rest]
      simp only [hasDotDot, Bool.or_eq_false_iff] at hd
      have := hd.1
      simp only [Bool.and_eq_false_iff] at this
      rcases this with h | h
      · simp [h]
      · simp [h]

theorem hasDotDot_append_slash (p : List Char) (hd : hasDotDot p = false) :
    hasDotDot (p ++ ['/']) = false := by
  induction p with
  | nil => rfl
  | cons c rest ih =>
    simp only [hasDotDot, Bool.or_eq_false_iff] at hd
    have := ih hd.2
    simp only [List.cons_append, hasDotDot, Bool.or_eq_false_iff]
    refine ⟨?_, this⟩
    cases rest with
    | nil => simp
    | cons b t =>
      have := hd.1
      simpa using this

theorem endsWithSlash_append_slash (p : List Char) : endsWithSlash (p ++ ['/']) = true := by
  induction p with
  | nil => rfl
  | cons c rest ih =>
    cases rest with
    | nil => simp [endsWithSlash]
    | cons b t => simpa [endsWithSlash] using ih

theorem endsWithSlash_ensure (p : List Char) : endsWithSlash (ensureTrailingSlash p) = true := by
  unfold ensureTrailingSlash
  split
  · assumption
  · exact endsWithSlash_append_slash p

theorem ensureTrailingSlash_of_ends (p : List Char) (h : endsWithSlash p = true) :
    ensureTrailingSlash p = p := by
  simp [ensureTrailingSlash, h]

theorem noDupSlash_append_slash (p : List Char) (hn : noDupSlash p = true)
    (he : endsWithSlash p = false) : noDupSlash (p ++ ['/']) = true := by
  induction p with
  | nil => rfl
  | cons c rest ih =>
    cases rest with
    | nil =>
      simp only [endsWithSlash] at he
      simp only [List.cons_append, List.nil_append]
      simp only [noDupSlash]
      simp_all
    | cons b t =>
      have hrest := noDupSlash_tail c (b :: t) hn
      have herest : endsWithSlash (b :: t) = false := he
      have := ih hrest herest
      simp only [List.cons_append, noDupSlash, Bool.and_eq_true] at this ⊢
      refine ⟨?_, this⟩
      simp only [noDupSlash, Bool.and_eq_true] at hn
      exact hn.1

theorem noDupSlash_endsTwoSlash (p : List Char) (hn : noDupSlash p = true) :
    endsTwoSlash p = false := by
  induction p with
  | nil => rfl
  | cons c rest ih =>
    cases rest with
    | nil => rfl
    | cons b t =>
      cases t with
      | nil =>
        simp only [noDupSlash, Bool.and_eq_true, Bool.not_eq_true'] at hn
        simpa [endsTwoSlash] using hn.1
      | cons d u =>
        have := ih (noDupSlash_tail c _ hn)
        simpa [endsTwoSlash] using this

theorem noDupSlash_startsDouble (p : List Char) (hn : noDupSlash p = true) :
    startsWithDoubleSlash p = false := by
  cases p with
  | nil => rfl
  | cons c rest =>
    cases rest with
    | nil => simp [startsWithDoubleSlash]
    | cons b t =>
      simp only [noDupSlash, Bool.and_eq_true, Bool.not_eq_true'] at hn
      have := hn.1
      simp only [startsWithDoubleSlash, List.get?]
      simp only [Bool.and_eq_false_iff] at this
      rcases this with h | h <;> simp [h]

theorem collapseAux_cons_slash_false (rest : List Char) :
    collapseAux false ('/' :: rest) = '/' :: collapseAux true rest := by
  simp [collapseAux]

theorem collapseAux_cons_slash_true (rest : List Char) :
    collapseAux true ('/' :: rest) = collapseAux true rest := by
  simp [collapseAux]

theorem collapseAux_cons_ne (b : Bool) (c : Char) (rest : List Char) (hc : c ≠ '/') :
    collapseAux b (c :: rest) = c :: collapseAux false rest := by
  simp [collapseAux, hc]

theorem endsWithSlash_cons_of_ne_nil (c : Char) (X : List Char) (hX : X ≠ []) :
    endsWithSlash (c :: X) = endsWithSlash X := by
  cases X with
  | nil => exact absurd rfl hX
  | cons b t => rfl

theorem collapseAux_ends (p : List Char) :
    endsWithSlash (collapseAux false p) = endsWithSlash p ∧
    endsWithSlash ('/' :: collapseAux true p) = (p.isEmpty || endsWithSlash p) := by
  induction p with
  | nil => constructor <;> simp [collapseAux, endsWithSlash]
  | cons c rest ih =>
    obtain ⟨ihA, ihB⟩ := ih
    by_cases hc : c = '/'
    · subst hc
      constructor
      · rw [collapseAux_cons_slash_false, ihB]
        cases rest with
        | nil => simp [endsWithSlash]
        | cons b t => simp [endsWithSlash]
      · rw [collapseAux_cons_slash_true, ihB]
        cases rest with
        | nil => simp [endsWithSlash]
        | cons b t => simp [endsWithSlash]
    · constructor
      · rw [collapseAux_cons_ne false c rest hc]
        cases rest with
        | nil => simp [collapseAux]
        | cons b t =>
          have hne : collapseAux false (b :: t) ≠ [] := collapseAux_false_nonempty _ (by simp)
          rw [endsWithSlash_cons_of_ne_nil c _ hne, ihA,
            endsWithSlash_cons_of_ne_nil c _ (by simp)]
      · rw [collapseAux_cons_ne true c rest hc]
        cases rest with
        | nil => simp [collapseAux, endsWithSlash, hc]
        | cons b t =>
          have hne : collapseAux false (b :: t) ≠ [] := collapseAux_false_nonempty _ (by simp)
          rw [endsWithSlash_cons_of_ne_nil '/' _ (by simp),
            endsWithSlash_cons_of_ne_nil c _ hne, ihA]
          simp [endsWithSlash_cons_of_ne_nil c (b :: t) (by simp)]

theorem isAbsolutePath_slash_cons (t : List Char) : isAbsolutePath ('/' :: t) = true := by
  simp [isAbsolutePath]

theorem isAbsolutePath_drive (a : Char) (t : List Char) :
    isAbsolutePath (a :: ':' :: '/' :: t) = true := by
  simp [isAbsolutePath, List.get?]

theorem isAbsolutePath_collapse (p : List Char) (h : isAbsolutePath p = true) :
    isAbsolutePath (collapseSlashes p) = true ∧
    isAbsolutePath (ensureTrailingSlash (collapseSlashes p)) = true := by
  by_cases h0 : p.get? 0 = some '/'
  · obtain ⟨c, rest, rfl⟩ : ∃ c rest, p = c :: rest := by
      cases p with
      | nil => simp at h0
      | cons c rest => exact ⟨c, rest, rfl⟩
    have hc : c = '/' := by simpa using h0
    subst hc
    rw [show collapseSlashes ('/' :: rest) = '/' :: collapseAux true rest from
      collapseAux_cons_slash_false rest]
    refine ⟨isAbsolutePath_slash_cons _, ?_⟩
    unfold ensureTrailingSlash
    split
    · exact isAbsolutePath_slash_cons _
    · rw [List.cons_append]
      exact isAbsolutePath_slash_cons _
  · have h12 : p.get? 1 = some ':' ∧ p.get? 2 = some '/' := by
      simp only [isAbsolutePath, Bool.or_eq_true, Bool.and_eq_true, decide_eq_true_eq] at h
      rcases h with h | h
      · exact absurd h h0
      · exact h
    obtain ⟨a, b, c2, u, rfl⟩ : ∃ a b c2 u, p = a :: b :: c2 :: u := by
      cases p with
      | nil => simp at h12
      | cons a q1 =>
        cases q1 with
        | nil => simp [List.get?] at h12
        | cons b q2 =>
          cases q2 with
          | nil => simp [List.get?] at h12
          | cons c2 u => exact ⟨a, b, c2, u, rfl⟩
    have hb : b = ':' := by simpa [List.get?] using h12.1
    have hc2 : c2 = '/' := by simpa [List.get?] using h12.2
    subst hb; subst hc2
    have ha : a ≠ '/' := by
      intro hh
      subst hh
      simp [List.get?] at h0
    have hco : collapseSlashes (a :: ':' :: '/' :: u) = a :: ':' :: '/' :: collapseAux true u := by
      unfold collapseSlashes
      rw [collapseAux_cons_ne false a _ ha,
        collapseAux_cons_ne false ':' _ (by decide),
        collapseAux_cons_slash_false]
    rw [hco]
    refine ⟨isAbsolutePath_drive _ _, ?_⟩
    unfold ensureTrailingSlash
    split
    · exact isAbsolutePath_drive _ _
    · simp only [List.cons_append]
      exact isAbsolutePath_drive _ _

theorem normalizePath_no_dotdot (unc : Bool) (p : List Char) (isDir : Bool)
    (habs : isAbsolutePath p = true) (hdd : hasDotDot (collapseSlashes p) = false)
    (hunc : startsWithDoubleSlash p = false) :
    normalizePath unc p isDir =
      some (if isDir then ensureTrailingSlash (collapseSlashes p) else collapseSlashes p) := by
  simp [normalizePath, habs, hdd, hunc]

/-! ### Claim C6 -/

/-- C6 counterexample: after normalization with the file flag a path may still end
with a slash — _normalizePath never strips a trailing slash, so normalizing the
(already normalized) file path consisting of slash, letter a, slash returns it
unchanged with its trailing slash, refuting the part of the claim that a file path
never ends with a slash after normalization. -/
theorem C6_file_trailing_slash_cex :
    normalizePath false ['/', 'a', '/'] false = some ['/', 'a', '/'] ∧
    endsWithSlash ['/', 'a', '/'] = true := by
  constructor
  · rfl
  · rfl

/-- C6 (amended): for every absolute path that contains no two consecutive dots and
does not begin with two slashes, _normalizePath succeeds and is idempotent (with
either setting of the UNC backend flag and of the directory flag); with the
directory flag the result ends with exactly one trailing slash; with the file flag
the result ends with a slash exactly when the input does (normalization never adds
or strips a trailing slash for files). -/
theorem C6_normalizePath_idempotent (unc : Bool) (p : List Char) (isDirectory : Bool)
    (habs : isAbsolutePath p = true)
    (hdd : hasDotDot p = false)
    (hunc : startsWithDoubleSlash p = false) :
    ∃ q, normalizePath unc p isDirectory = some q ∧
      normalizePath unc q isDirectory = some q ∧
      (isDirectory = true → endsWithSlash q = true ∧ endsTwoSlash q = false) ∧
      (isDirectory = false → endsWithSlash q = endsWithSlash p) := by
  have hdd1 : hasDotDot (collapseSlashes p) = false := collapseAux_hasDotDot p hdd false
  have h1 := normalizePath_no_dotdot unc p isDirectory habs hdd1 hunc
  have hnodup_c : noDupSlash (collapseSlashes p) = true := collapseAux_noDup p false
  have habs2 := isAbsolutePath_collapse p habs
  cases isDirectory with
  | false =>
    refine ⟨collapseSlashes p, by simpa using h1, ?_, by simp, ?_⟩
    · have hq_unc : startsWithDoubleSlash (collapseSlashes p) = false :=
        noDupSlash_startsDouble _ hnodup_c
      have hq_fix : collapseSlashes (collapseSlashes p) = collapseSlashes p :=
        (collapseAux_fix (collapseSlashes p) hnodup_c).1
      have := normalizePath_no_dotdot unc (collapseSlashes p) false habs2.1
        (by rw [show collapseSlashes (collapseSlashes p) = collapseSlashes p from hq_fix]
            exact hdd1) hq_unc
      simpa [hq_fix] using this
    · intro _
      exact (collapseAux_ends p).1
  | true =>
    refine ⟨ensureTrailingSlash (collapseSlashes p), by simpa using h1, ?_, ?_, by simp⟩
    · have hq_nodup : noDupSlash (ensureTrailingSlash (collapseSlashes p)) = true := by
        unfold ensureTrailingSlash
        split
        · exact hnodup_c
        · exact noDupSlash_append_slash _ hnodup_c (by simp_all)
      have hq_dd : hasDotDot (ensureTrailingSlash (collapseSlashes p)) = false := by
        unfold ensureTrailingSlash
        split
        · exact hdd1
        · exact hasDotDot_append_slash _ hdd1
      have hq_unc : startsWithDoubleSlash (ensureTrailingSlash (collapseSlashes p)) = false :=
        noDupSlash_startsDouble _ hq_nodup
      have hq_fix : collapseSlashes (ensureTrailingSlash (collapseSlashes p)) =
          ensureTrailingSlash (collapseSlashes p) :=
        (collapseAux_fix _ hq_nodup).1
      have h2 := normalizePath_no_dotdot unc (ensureTrailingSlash (collapseSlashes p)) true
        habs2.2 (by rw [hq_fix]; exact hq_dd) hq_unc
      rw [h2]
      simp only [if_true]
      rw [hq_fix, ensureTrailingSlash_of_ends _ (endsWithSlash_ensure _)]
    · intro _
      have hq_nodup : noDupSlash (ensureTrailingSlash (collapseSlashes p)) = true := by
        unfold ensureTrailingSlash
        split
        · exact hnodup_c
        · exact noDupSlash_append_slash _ hnodup_c (by simp_all)
      exact ⟨endsWithSlash_ensure _, noDupSlash_endsTwoSlash _ hq_nodup⟩

/-- C6 witness: the amended theorem applied to a concrete drive-letter directory
path with duplicated interior slashes. -/
theorem C6_normalizePath_idempotent_witness :
    ∃ q, normalizePath false ['c', ':', '/', 'x', '/', '/', 'y'] true = some q ∧
      normalizePath false q true = some q ∧
      (true = true → endsWithSlash q = true ∧ endsTwoSlash q = false) ∧
      (true = false → endsWithSlash q = endsWithSlash ['c', ':', '/', 'x', '/', '/', 'y']) := by
  exact C6_normalizePath_idempotent false ['c', ':', '/', 'x', '/', '/', 'y'] true
    (by decide) (by decide) (by decide)

/-! ### Claim C1 -/

/-- C1: while the change-barrier count is non-zero, every externally reported
change passed to _enqueueExternalChange is queued and not dispatched (the log of
_handleExternalChange invocations is unchanged); when _endChange brings the count
from one back to exactly zero, all queued changes are replayed via
_handleExternalChange in the order they arrived and the queue is emptied. -/
theorem C1_change_barrier (s : CoalescerState) (ch : ExtChange) :
    (s.activeChangeCount ≠ 0 →
      enqueueExternalChange ch s =
        { s with externalChanges := s.externalChanges ++ [ch] }) ∧
    (s.activeChangeCount = 1 →
      endChange s =
        { activeChangeCount := 0, externalChanges := [],
          handled := s.handled ++ s.externalChanges }) := by
  constructor
  · intro h
    simp [enqueueExternalChange, h]
  · intro h
    simp [endChange, triggerExternalChangesNow, h]

/-- C1 witness: a queued change under an open barrier, and the replay on the
closing _endChange. -/
theorem C1_change_barrier_witness :
    enqueueExternalChange (some ['/', 'f'], none) ⟨1, [], []⟩ =
      { activeChangeCount := 1, externalChanges := [(some ['/', 'f'], none)],
        handled := [] } ∧
    endChange ⟨1, [(some ['/', 'f'], none), (none, none)], []⟩ =
      { activeChangeCount := 0, externalChanges := [],
        handled := [(some ['/', 'f'], none), (none, none)] } := by
  exact ⟨(C1_change_barrier ⟨1, [], []⟩ (some ['/', 'f'], none)).1 (by decide),
    (C1_change_barrier ⟨1, [(some ['/', 'f'], none), (none, none)], []⟩
      (some ['/', 'f'], none)).2 rfl⟩

/-! ### Claim C3 -/

/-- C3: evaluation at the failing input.  With a watched root at the slash-a-b
directory in ACTIVE state, watching its ancestor (the slash-a directory) does not
fail with an overlap error: the child-root guard reads the status property of a
Boolean and can never fire, so a second, overlapping root is registered.  (The
ancestor direction of the claim does hold, third conjunct.) -/
theorem C3_descendant_watch_not_refused :
    (watch ⟨[("/a/b/".toList, ⟨"/a/b/".toList, .ACTIVE⟩)]⟩ "/a/".toList).1 =
      .registered ∧
    (watch ⟨[("/a/b/".toList, ⟨"/a/b/".toList, .ACTIVE⟩)]⟩ "/a/".toList).2.watchedRoots =
      [("/a/b/".toList, ⟨"/a/b/".toList, .ACTIVE⟩),
       ("/a/".toList, ⟨"/a/".toList, .STARTING⟩)] ∧
    (watch ⟨[("/a/".toList, ⟨"/a/".toList, .ACTIVE⟩)]⟩ "/a/b/".toList).1 =
      .errParentWatched := by
  refine ⟨by decide, by decide, by decide⟩

/-! ### Claim C4 -/

/-- C4: evaluation of the probed candidate paths at the failing input.  For an
existing file the copy suffix is inserted with no space before the opening
parenthesis, diverging from the claimed spacing; for a directory the suffix is
appended with the space. -/
theorem C4_copy_suffix_eval :
    getNewPath "/a/b/test.html".toList false 1 = "/a/b/test(copy 1).html".toList ∧
    getNewPath "/a/b/test.html".toList false 1 ≠ "/a/b/test (copy 1).html".toList ∧
    getNewPath "/a/b/dir".toList true 1 = "/a/b/dir (copy 1)".toList := by
  refine ⟨by decide, by decide, by decide⟩

/-! ### Claim C5 -/

/-- C5: for a file entry found in the index, an external change whose incoming
modification time is not newer than the cached one is a no-op (no stat update, no
cache invalidation, no event); only a strictly newer time clears the cached data,
refreshes the stat and fires one change event for that entry. -/
theorem C5_stale_external_change (unc : Bool) (p np : List Char) (m om : Int)
    (index : List EntryRec) (entry : EntryRec)
    (hnorm : normalizePath unc p false = some np)
    (hfind : index.find? (fun e => e.fullPath == np) = some entry)
    (hfile : entry.isFile = true)
    (hold : entry.statMtime = some om) :
    (m ≤ om → handleExternalChange unc (some p) (some m) index = some (index, [])) ∧
    (om < m → handleExternalChange unc (some p) (some m) index =
        some (index.map (fun e => if e.fullPath == np
            then { fullPath := e.fullPath, isFile := e.isFile,
                   statMtime := some m, hasCachedData := false } else e),
          [.change (some np)])) := by
  constructor
  · intro h
    simp [handleExternalChange, hnorm, hfind, hfile, staleCheck, hold, h]
  · intro h
    simp [handleExternalChange, hnorm, hfind, hfile, staleCheck, hold, not_le.mpr h,
      clearCachedData]

/-- C5 witness: a stale change (incoming time three, cached time five) for an
indexed file entry leaves the index untouched and fires nothing. -/
theorem C5_stale_external_change_witness :
    handleExternalChange false (some "/f.txt".toList) (some 3)
        [⟨"/f.txt".toList, true, some 5, true⟩] =
      some ([⟨"/f.txt".toList, true, some 5, true⟩], []) := by
  exact (C5_stale_external_change false "/f.txt".toList "/f.txt".toList 3 5
    [⟨"/f.txt".toList, true, some 5, true⟩] ⟨"/f.txt".toList, true, some 5, true⟩
    (by decide) (by decide) rfl rfl).1 (by decide)

/-! ### Claim C7 -/

/-- C7: a wholesale external change (null path) clears the cached data of every
entry in the index and fires exactly one change event whose entry argument is
null; no per-entry change events are fired and no entry is added or removed. -/
theorem C7_wholesale_change (unc : Bool) (stat : Option Int) (index : List EntryRec) :
    ∃ index2, handleExternalChange unc none stat index = some (index2, [.change none]) ∧
      index2.map EntryRec.fullPath = index.map EntryRec.fullPath ∧
      ∀ e ∈ index2, e.hasCachedData = false ∧ e.statMtime = none := by
  refine ⟨index.map clearCachedData, rfl, ?_, ?_⟩
  · rw [List.map_map]
    rfl
  · intro e he
    rw [List.mem_map] at he
    obtain ⟨x, _, rfl⟩ := he
    exact ⟨rfl, rfl⟩

/-! ### Claim C8 -/

theorem runCompletions_closed_form (l : List Bool) : ∀ (c r : Nat), l.length ≤ c → 1 ≤ c →
    runCompletions ⟨c, r⟩ l = ⟨c - l.length, if l.length = c then r + 1 else r⟩ := by
  induction l with
  | nil =>
    intro c r h h1
    simp only [runCompletions, List.length_nil]
    rw [if_neg (by omega)]
    simp
  | cons e rest ih =>
    intro c r h h1
    simp only [List.length_cons] at h
    simp only [runCompletions, watchOrUnwatchCallback]
    by_cases hc : c - 1 = 0
    · have hc1 : c = 1 := by omega
      have hr : rest = [] := List.eq_nil_of_length_eq_zero (by omega)
      subst hr
      subst hc1
      simp [runCompletions]
    · rw [if_neg hc]
      rw [ih (c - 1) r (by omega) (by omega)]
      have h2 : c - 1 - rest.length = c - (e :: rest).length := by
        simp only [List.length_cons]
        omega
      have h3 : (if rest.length = c - 1 then r + 1 else r) =
          (if (e :: rest).length = c then r + 1 else r) := by
        by_cases hh : rest.length = c - 1
        · rw [if_pos hh, if_pos (by simp only [List.length_cons]; omega)]
        · rw [if_neg hh, if_neg (by simp only [List.length_cons]; omega)]
      rw [h2, h3]

/-- C8: in the watched directory-diff fan-out with a positive number of
sub-operations (the added count plus the removed count), running any sequence of
sub-operation completions — in any order and with any error flags — applies the
directory-change callback exactly once when, and only when, all sub-operations
have completed: after a partial sequence the callback has run zero times. -/
theorem C8_diff_callback_exactly_once (oldContents newContents : List Nat) (l : List Bool)
    (hN : 0 < subOpCounter oldContents newContents)
    (hlen : l.length ≤ subOpCounter oldContents newContents) :
    (runCompletions ⟨subOpCounter oldContents newContents, 0⟩ l).callbackRuns =
      (if l.length = subOpCounter oldContents newContents then 1 else 0) ∧
    (runCompletions ⟨subOpCounter oldContents newContents, 0⟩ l).counter =
      subOpCounter oldContents newContents - l.length := by
  rw [runCompletions_closed_form l _ 0 hlen hN]
  constructor
  · split <;> rfl
  · rfl

/-- C8 witness: a diff with one added and one removed entry; both completions
(with differing error flags) make the callback run exactly once. -/
theorem C8_diff_callback_exactly_once_witness :
    (runCompletions ⟨subOpCounter [1, 2] [2, 3], 0⟩ [false, true]).callbackRuns =
      (if [false, true].length = subOpCounter [1, 2] [2, 3] then 1 else 0) ∧
    (runCompletions ⟨subOpCounter [1, 2] [2, 3], 0⟩ [false, true]).counter =
      subOpCounter [1, 2] [2, 3] - [false, true].length := by
  exact C8_diff_callback_exactly_once [1, 2] [2, 3] [false, true] (by decide) (by decide)

/-! ### Claim C9 -/

theorem freePathLoop_exhaust (suggestedPath : List Char) (isDir : Bool)
    (existsFn : List Char → Bool) :
    ∀ (fuel i : Nat),
      (∀ j, i ≤ j → j < i + fuel → existsFn (getNewPath suggestedPath isDir j) = true) →
      freePathLoop suggestedPath isDir existsFn fuel i = .error .TOO_MANY_ENTRIES := by
  intro fuel
  induction fuel with
  | zero => intro i _; rfl
  | succ n ih =>
    intro i hall
    have h0 : existsFn (getNewPath suggestedPath isDir i) = true := hall i le_rfl (by omega)
    simp only [freePathLoop, h0, if_true]
    exact ih (i + 1) (fun j hj1 hj2 => hall j (by omega) (by omega))

/-- C9: getFreePath returns the suggested path unchanged (with no error) when the
backend stat reports NOT_FOUND; when every probed candidate below the fixed bound
MAX_DEDUPE_NUMBER exists, it fails with TOO_MANY_ENTRIES; and any other stat error
is passed through to the callback verbatim. -/
theorem C9_getFreePath_errors (suggestedPath : List Char) (isDir : Bool)
    (existsFn : List Char → Bool) (e : FsError) (he : e ≠ .NOT_FOUND) :
    getFreePath (.error .NOT_FOUND) existsFn suggestedPath = .ok suggestedPath ∧
    ((∀ j, 1 ≤ j → j < MAX_DEDUPE_NUMBER →
        existsFn (getNewPath suggestedPath isDir j) = true) →
      getFreePath (.ok isDir) existsFn suggestedPath = .error .TOO_MANY_ENTRIES) ∧
    getFreePath (.error e) existsFn suggestedPath = .error e := by
  refine ⟨rfl, ?_, ?_⟩
  · intro hall
    show freePathLoop suggestedPath isDir existsFn (MAX_DEDUPE_NUMBER - 1) 1 = _
    refine freePathLoop_exhaust suggestedPath isDir existsFn (MAX_DEDUPE_NUMBER - 1) 1
      (fun j hj1 hj2 => hall j hj1 ?_)
    unfold MAX_DEDUPE_NUMBER at hj2 ⊢
    omega
  · simp [getFreePath, he]

/-- C9 witness: with a backend on which every candidate exists, the three error
behaviors at a concrete suggested file path. -/
theorem C9_getFreePath_errors_witness :
    getFreePath (.error .NOT_FOUND) (fun _ => true) "/a/b.txt".toList =
      .ok "/a/b.txt".toList ∧
    getFreePath (.ok false) (fun _ => true) "/a/b.txt".toList =
      .error .TOO_MANY_ENTRIES ∧
    getFreePath (.error (.backendErr 7)) (fun _ => true) "/a/b.txt".toList =
      .error (.backendErr 7) := by
  obtain ⟨h1, h2, h3⟩ := C9_getFreePath_errors "/a/b.txt".toList false (fun _ => true)
    (.backendErr 7) (by decide)
  exact ⟨h1, h2 (fun j _ _ => rfl), h3⟩

/-! ### Claim C10 -/

/-- C10 counterexample: a reachable registry state in which the exact path is
registered as a STARTING root, yet watch registers anew instead of failing: an
earlier-registered INACTIVE ancestor root is the first prefix match of the lookup,
its status check fails, and the dead child-root check lets the call through. -/
theorem C10_shadowed_exact_root_cex :
    ((⟨[("/a/".toList, ⟨"/a/".toList, .INACTIVE⟩),
        ("/a/b/".toList, ⟨"/a/b/".toList, .STARTING⟩)]⟩ : WatchState).watchedRoots.find?
        (fun kv => kv.1 == "/a/b/".toList)).map Prod.snd =
      some ⟨"/a/b/".toList, .STARTING⟩ ∧
    (watch ⟨[("/a/".toList, ⟨"/a/".toList, .INACTIVE⟩),
        ("/a/b/".toList, ⟨"/a/b/".toList, .STARTING⟩)]⟩ "/a/b/".toList).1 =
      .registered := by
  refine ⟨by decide, by decide⟩

/-- C10 (amended): when the exact path is registered as a watched root in STARTING
or ACTIVE state and the first prefix-matching root of the parent lookup is itself
in STARTING or ACTIVE state (in particular whenever no earlier-registered INACTIVE
root shadows the exact root), watch fails with the parent-overlap error — the
prefix match treats the root as its own ancestor — and registers nothing. -/
theorem C10_exact_rewatch_parent_error (s : WatchState) (p : List Char) (r0 r : WRoot)
    (_hreg : (s.watchedRoots.find? (fun kv => kv.1 == p)).map Prod.snd = some r0)
    (_hst0 : r0.status = .STARTING ∨ r0.status = .ACTIVE)
    (hfirst : findWatchedRootForPath s p = some r)
    (hst : r.status = .STARTING ∨ r.status = .ACTIVE) :
    watch s p = (.errParentWatched, s) := by
  unfold watch
  rw [hfirst]
  rcases hst with h | h <;> simp [h]

/-- C10 witness: a single ACTIVE root watched again at its exact path. -/
theorem C10_exact_rewatch_parent_error_witness :
    watch ⟨[("/a/b/".toList, ⟨"/a/b/".toList, .ACTIVE⟩)]⟩ "/a/b/".toList =
      (.errParentWatched, ⟨[("/a/b/".toList, ⟨"/a/b/".toList, .ACTIVE⟩)]⟩) := by
  exact C10_exact_rewatch_parent_error _ _ ⟨"/a/b/".toList, .ACTIVE⟩
    ⟨"/a/b/".toList, .ACTIVE⟩ (by decide) (Or.inr rfl) (by decide) (Or.inr rfl)

/-! ### Claim C2 -/

theorem find?_append_none {α : Type} (q : α → Bool) (l1 l2 : List α)
    (h : l1.find? q = none) : (l1 ++ l2).find? q = l2.find? q := by
  induction l1 with
  | nil => simp
  | cons a t ih =>
    cases hq : q a with
    | true =>
      rw [List.find?_cons_of_pos _ hq] at h
      exact absurd h (by simp)
    | false =>
      rw [List.find?_cons_of_neg _ (by simp [hq])] at h
      rw [List.cons_append, List.find?_cons_of_neg _ (by simp [hq])]
      exact ih h

theorem getFileForPath_no_adapter (unc : Bool) (vfs : List Char → Option (List Char))
    (pp np : List Char) (st : FsIndexState)
    (hv : vfs pp = none) (ha : adapterWithFileImpl (protocolOf pp) = false)
    (hn : normalizePath unc pp false = some np) :
    getFileForPath unc vfs pp st =
      some (match indexGetEntry st np with
            | some id => (.indexed id, st)
            | none => (.indexed st.nextId,
                ⟨st.entries ++ [(np, st.nextId)], st.nextId + 1⟩)) := by
  simp only [getFileForPath, hv, Option.getD_none, ha, Bool.false_eq_true, if_false,
    getEntryForPath, hn]
  cases indexGetEntry st np <;> rfl

/-- C2 (amended): for paths whose protocol has no registered adapter with a file
implementation (in particular all local absolute paths) and which the virtual
serving remap leaves alone, two getFileForPath calls with equivalent paths (paths
normalizing to the same string) return the identical entry object, and the entry
index never acquires two entries for the same normalized path (key uniqueness is
preserved).  For adapter-handled protocols a fresh remote-file object is
constructed on every call (see the counterexample). -/
theorem C2_entry_identity (unc : Bool) (vfs : List Char → Option (List Char))
    (p1 p2 np : List Char) (s s1 s2 : FsIndexState) (e1 e2 : EntryObj)
    (hv1 : vfs p1 = none) (hv2 : vfs p2 = none)
    (ha1 : adapterWithFileImpl (protocolOf p1) = false)
    (ha2 : adapterWithFileImpl (protocolOf p2) = false)
    (hn1 : normalizePath unc p1 false = some np)
    (hn2 : normalizePath unc p2 false = some np)
    (h1 : getFileForPath unc vfs p1 s = some (e1, s1))
    (h2 : getFileForPath unc vfs p2 s1 = some (e2, s2)) :
    e1 = e2 ∧ ((s.entries.map Prod.fst).Nodup → (s2.entries.map Prod.fst).Nodup) := by
  rw [getFileForPath_no_adapter unc vfs p1 np s hv1 ha1 hn1] at h1
  cases hidx : indexGetEntry s np with
  | some id =>
    rw [hidx] at h1
    obtain ⟨he1, hs1⟩ := Prod.mk.inj (Option.some.inj h1)
    rw [getFileForPath_no_adapter unc vfs p2 np s1 hv2 ha2 hn2] at h2
    rw [← hs1, hidx] at h2
    obtain ⟨he2, hs2⟩ := Prod.mk.inj (Option.some.inj h2)
    refine ⟨by rw [← he1, ← he2], ?_⟩
    intro hnd
    rw [← hs2]
    exact hnd
  | none =>
    rw [hidx] at h1
    obtain ⟨he1, hs1⟩ := Prod.mk.inj (Option.some.inj h1)
    have hfind_none : s.entries.find? (fun kv => kv.1 == np) = none := by
      unfold indexGetEntry at hidx
      exact Option.map_eq_none'.mp hidx
    have hidx1 : indexGetEntry ⟨s.entries ++ [(np, s.nextId)], s.nextId + 1⟩ np =
        some s.nextId := by
      unfold indexGetEntry
      rw [show (⟨s.entries ++ [(np, s.nextId)], s.nextId + 1⟩ : FsIndexState).entries =
        s.entries ++ [(np, s.nextId)] from rfl]
      rw [find?_append_none _ _ _ hfind_none]
      simp [List.find?]
    rw [getFileForPath_no_adapter unc vfs p2 np s1 hv2 ha2 hn2] at h2
    rw [← hs1, hidx1] at h2
    obtain ⟨he2, hs2⟩ := Prod.mk.inj (Option.some.inj h2)
    refine ⟨by rw [← he1, ← he2], ?_⟩
    intro hnd
    have hnp : np ∉ s.entries.map Prod.fst := by
      intro hmem
      rw [List.mem_map] at hmem
      obtain ⟨kv, hkv, hfst⟩ := hmem
      have hq := List.find?_eq_none.mp hfind_none kv hkv
      rw [hfst] at hq
      simp at hq
    rw [← hs2]
    show (List.map Prod.fst (s.entries ++ [(np, s.nextId)])).Nodup
    simp only [List.map_append, List.map_cons, List.map_nil]
    rw [List.nodup_append]
    refine ⟨hnd, List.nodup_singleton np, ?_⟩
    intro x hx hx'
    simp only [List.mem_singleton] at hx'
    subst hx'
    exact hnp hx

/-- C2 counterexample: the http protocol resolves to the default remote-file
adapter, so two getFileForPath calls on the same remote path construct two
distinct (fresh) remote-file objects and index nothing — reference equality fails
for such paths. -/
theorem C2_remote_file_not_cached_cex :
    getFileForPath false (fun _ => none) "http://x/y".toList ⟨[], 0⟩ =
      some (.remoteFile 0, ⟨[], 1⟩) ∧
    getFileForPath false (fun _ => none) "http://x/y".toList ⟨[], 1⟩ =
      some (.remoteFile 1, ⟨[], 2⟩) ∧
    EntryObj.remoteFile 0 ≠ EntryObj.remoteFile 1 := by
  refine ⟨by decide, by decide, by decide⟩

/-- C2 witness: two lookups of the same local file path on an empty index yield
the same entry object and preserve key uniqueness. -/
theorem C2_entry_identity_witness :
    EntryObj.indexed 0 = EntryObj.indexed 0 ∧
    (((⟨[], 0⟩ : FsIndexState).entries.map Prod.fst).Nodup →
      ((⟨[("/a/b.txt".toList, 0)], 1⟩ : FsIndexState).entries.map Prod.fst).Nodup) := by
  exact C2_entry_identity false (fun _ => none) "/a/b.txt".toList "/a/b.txt".toList
    "/a/b.txt".toList ⟨[], 0⟩ ⟨[("/a/b.txt".toList, 0)], 1⟩ ⟨[("/a/b.txt".toList, 0)], 1⟩
    (.indexed 0) (.indexed 0) rfl rfl (by decide) (by decide) (by decide) (by decide)
    (by decide) (by decide)
